import Mathlib

/-!
Shallow embedding of `censo_qm/utilities.py` (CENSO utility module) and
verification of the specification's claims about it.

Python floats are modelled as real numbers `ℝ` where transcendental
functions (`math.exp`, `math.sqrt`) occur, and as rationals `ℚ` where the
code only does field arithmetic, so that concrete runs can be checked by
`decide`.  Python functions that can raise an uncaught exception are
modelled as `Option`-valued functions returning `none` at exactly the
inputs where the Python code raises.
-/

namespace Censo

/-- Modelled from the spec: the hartree→joule conversion constant `AU2J`,
imported by `utilities.py` from `.cfg` (the `cfg` module itself is not part
of the sources considered here).  Only its positivity matters below. -/
def AU2J : ℝ := 4.3597482e-18

/-- Modelled from the spec: the Boltzmann constant `KB` (J/K), imported by
`utilities.py` from `.cfg`.  Only its positivity matters below. -/
def KB : ℝ := 1.380649e-23

theorem AU2J_pos : 0 < AU2J := by norm_num [AU2J]

theorem KB_pos : 0 < KB := by norm_num [KB]

/-! ## `check_tasks` (utilities.py lines 789–809) -/

/-- What `check_tasks` does to the process: `sys.exit(1)`, a printed
warning, or nothing. -/
inductive TaskOutcome where
  | exit1   : TaskOutcome
  | warning : TaskOutcome
  | silent  : TaskOutcome
deriving DecidableEq, Repr

/-- `check_tasks(results, check=False, thresh=0.25)`.  A result is
modelled by the boolean `item.job["success"]`.  `counter` counts the
failed results; `float(counter)/float(len(results))` raises
`ZeroDivisionError` on an empty result list, which the code catches and
turns into `sys.exit(1)`. -/
def check_tasks (results : List Bool) (check : Bool) (thresh : ℚ) : TaskOutcome :=
  let counter := (results.filter (fun success => !success)).length
  if results.length = 0 then
    TaskOutcome.exit1
  else
    let fail_rate : ℚ := (counter : ℚ) / (results.length : ℚ)
    if fail_rate ≥ thresh ∧ check then TaskOutcome.exit1
    else if fail_rate ≥ thresh then TaskOutcome.warning
    else TaskOutcome.silent

/-- The default failure threshold of `check_tasks`. -/
def check_tasks_default_thresh : ℚ := 0.25

/-! ## `pearson` (utilities.py lines 501–521) -/

/-- `pearson(A, B)`.  `none` models an uncaught Python exception:
`ZeroDivisionError` from `sum(A)/n` when `len(A) == 0`, from
`1/(n-1)` when `len(A) == 1`, and `IndexError` from `B[i]` when
`len(B) < len(A)` (the `try` in the source only catches
`ZeroDivisionError` of the final division, which returns `0.0`). -/
noncomputable def pearson (A B : List ℝ) : Option ℝ :=
  if A.length = 0 then none
  else if A.length = 1 then none
  else
    let n : ℝ := (A.length : ℝ)
    let muA := A.sum / n
    let muB := B.sum / n
    let stdA := Real.sqrt ((1 / (n - 1)) * ((A.map (fun x => (x - muA) * (x - muA))).sum))
    let stdB := Real.sqrt ((1 / (n - 1)) * ((B.map (fun x => (x - muB) * (x - muB))).sum))
    if B.length < A.length then none
    else if (n - 1) * stdA * stdB = 0 then some 0
    else some ((((List.range A.length).map (fun i => A.getD i 0 * B.getD i 0)).sum - n * muA * muB)
      / ((n - 1) * stdA * stdB))

/-- The length-mismatch check at the top of `pearson`: when
`len(A) != len(B)` the function prints
`"ERROR in PEARSON lists are not of equal length!"` and continues. -/
def pearsonReportsMismatch (A B : List ℝ) : Bool := A.length ≠ B.length

/-! ## `calc_boltzmannweights` (utilities.py lines 371–411) -/

/-- The `property` string argument of `calc_boltzmannweights`; values it is
called with in the code base select a scalar attribute of a conformer. -/
inductive PropKey where
  | free_energy : PropKey
  | xtb_energy  : PropKey
deriving DecidableEq

/-- A conformer as seen by `calc_boltzmannweights`: optional scalar
attributes (a `none` field models an absent Python attribute, read via
`getattr(conf, name, default)` or raising `AttributeError` on direct
access). -/
structure EConf where
  id          : Nat
  free_energy : Option ℝ := none
  xtb_energy  : Option ℝ := none
  gi          : Option ℝ := none
  bm_weight   : Option ℝ := none

/-- `getattr(conf, property, None)`. -/
def EConf.getProp (c : EConf) : PropKey → Option ℝ
  | PropKey.free_energy => c.free_energy
  | PropKey.xtb_energy  => c.xtb_energy

/-- The summand of the `bsum` loop:
`getattr(item, "gi", 1.0) * math.exp(-((item.free_energy - minfree) * AU2J) / (KB * T))`.
Note the source reads `item.free_energy` here, not the chosen property. -/
noncomputable def bterm (minfree T : ℝ) (c : EConf) : ℝ :=
  c.gi.getD 1 * Real.exp (-((c.free_energy.getD 0 - minfree) * AU2J) / (KB * T))

/-- `min([getattr(conf, property, None) for conf in confs if getattr(conf, property, None) is not None])`:
the minimum of the chosen property over conformers that have it set,
`none` when no conformer has it (Python `min([])` → `ValueError`). -/
noncomputable def minProp (confs : List EConf) (property : PropKey) : Option ℝ :=
  ((confs.filter (fun c => (c.getProp property).isSome)).map
    (fun c => (c.getProp property).getD 0)).min?

/-- The temperature coercion `if T == 0: T += 0.00001`. -/
noncomputable def tCoerce (T : ℝ) : ℝ := if T = 0 then T + 0.00001 else T

/-- `calc_boltzmannweights(confs, property, T)` for an already-float `T`
(the `float(T)` coercion then succeeds; its `ValueError` branch is only
reachable for string input).  `none` models an uncaught exception:
`NameError` on `minfree` when no conformer has the chosen property set
(the `ValueError` of `min([])` is caught, but `minfree` is then unbound),
`AttributeError` when some conformer lacks `free_energy`, and
`ZeroDivisionError` when `bsum == 0`. -/
noncomputable def calc_boltzmannweights (confs : List EConf) (property : PropKey) (T : ℝ) :
    Option (List EConf) :=
  if h : confs.length = 1 then
    some [{ confs.head (by intro hc; simp [hc] at h) with bm_weight := some 1 }]
  else
    (minProp confs property).bind (fun minfree =>
      if confs.any (fun c => c.free_energy.isNone) then none
      else if (confs.map (bterm minfree (tCoerce T))).sum = 0 then none
      else some (confs.map (fun c =>
        { c with
            bm_weight := some (bterm minfree (tCoerce T) c /
              (confs.map (bterm minfree (tCoerce T))).sum) })))

/-- The weight summand exactly as the specification words it (claim C2):
`E_i` is the value of the *chosen property* on conformer `i`. -/
noncomputable def specTerm (property : PropKey) (minE T : ℝ) (x : EConf) : ℝ :=
  x.gi.getD 1 * Real.exp (-(((x.getProp property).getD 0 - minE) * AU2J) / (KB * T))

/-- The per-conformer weight formula exactly as the specification words it
(claim C2): `E_i` is the value of the *chosen property* on conformer `i`,
`E_min` the minimum of the chosen property over conformers that have it
set.  Stated for comparison with the code's `calc_boltzmannweights`. -/
noncomputable def specClaimWeight (confs : List EConf) (property : PropKey) (T : ℝ)
    (c : EConf) : ℝ :=
  specTerm property ((minProp confs property).getD 0) T c /
    (confs.map (specTerm property ((minProp confs property).getD 0) T)).sum

/-! ## Stable insertion sort

Python's `sorted`/`list.sort` are stable.  The stable ascending sort by a
key is modelled by left-to-right insertion: a later element is inserted
after every already-placed element whose key is `≤` its own, which is
exactly the stable order. -/

/-- Insert `x` after every element of `l` whose key is `≤ key x`. -/
def insKey {α : Type} (key : α → ℚ) (x : α) : List α → List α
  | [] => [x]
  | y :: rest => if key y ≤ key x then y :: insKey key x rest else x :: y :: rest

/-- Stable ascending sort by `key` (extensionally equal to Python's
`sorted(l, key=key)`). -/
def sortKey {α : Type} (key : α → ℚ) (l : List α) : List α :=
  l.foldl (fun acc x => insKey key x acc) []

/-! ## Conformer-list operations: `new_folders` (414–432) and
`crest_routine` (639–765) -/

/-- A conformer as handled by the list-transfer routines: its identity and
the `optimization_info["energy"]` used by `crest_routine` for sorting and
for the energy line of the written trajectory. -/
structure Conf where
  id     : Nat
  energy : ℚ
deriving DecidableEq, Repr

/-- The loop of `new_folders`: Python iterates over `conflist` by index
while `conflist.pop(conflist.index(conf))` shrinks the very list being
iterated (so the element after a popped one is skipped), and the popped
conformer is appended to `store_confs`.  `fails c` models
"`mkdir_p` raised and the directory still does not exist" for conformer
`c` (external I/O nondeterminism). -/
def newFoldersLoop (fails : Conf → Bool) (i : Nat) (conflist store_confs : List Conf) :
    List Conf × List Conf :=
  if h : i < conflist.length then
    let c := conflist.get ⟨i, h⟩
    if fails c then
      newFoldersLoop fails (i + 1) (conflist.erase c) (store_confs ++ [c])
    else
      newFoldersLoop fails (i + 1) conflist store_confs
  else (conflist, store_confs)
termination_by conflist.length - i
decreasing_by
  · have hc : conflist.get ⟨i, h⟩ ∈ conflist := List.get_mem conflist _ h
    have hlen := List.length_erase_of_mem hc
    simp only [hlen]
    omega
  · omega

/-- `new_folders(cwd, conflist, foldername, save_errors, store_confs)`,
restricted to its effect on the two conformer lists. -/
def new_folders (conflist store_confs : List Conf) (fails : Conf → Bool) :
    List Conf × List Conf :=
  newFoldersLoop fails 0 conflist store_confs

/-- One removal loop of `crest_routine`: iterate over a snapshot
(`list(conformers)`); a conformer whose `CONF<id>` tag is not in `keep`
is transferred by `store_confs.append(conformers.pop(conformers.index(conf)))`.
If the conformer is no longer present, `list.index` raises `ValueError`,
which the surrounding `except` catches — the rest of the removal step is
abandoned (third component `true`). -/
def removeLoop (keep : List Nat) : List Conf → List Conf → List Conf →
    List Conf × List Conf × Bool
  | [], confs, store_confs => (confs, store_confs, false)
  | c :: rest, confs, store_confs =>
    if c.id ∈ keep then removeLoop keep rest confs store_confs
    else if c ∈ confs then removeLoop keep rest (confs.erase c) (store_confs ++ [c])
    else (confs, store_confs, true)

/-- The list-transfer part of `crest_routine` (lines 729–765).
`tags` is the parsed content of `enso.tags`: `none` when the file is
missing/unreadable (then `store` stays unbound and the removal `try`
aborts at once with `NameError`, removing nothing), `some keep` the list
of kept conformer ids.  Removal only happens with `config.crestcheck`
set; a `ValueError` abort after the first loop skips the
`prev_calculated` loop (the exception is caught outside both loops). -/
def crest_routine (crestcheck : Bool) (tags : Option (List Nat))
    (conformers prev_calculated store_confs : List Conf) :
    List Conf × List Conf × List Conf :=
  match crestcheck, tags with
  | true, some keep =>
      match removeLoop keep conformers conformers store_confs with
      | (confs', store', true) => (confs', prev_calculated, store')
      | (confs', store', false) =>
          match removeLoop keep prev_calculated prev_calculated store' with
          | (prev', store'', _) => (confs', prev', store'')
  | _, _ => (conformers, prev_calculated, store_confs)

/-- One operation on the conformer working set, as in claim C1. -/
inductive Op where
  | newFolders (fails : Conf → Bool) : Op
  | crest (crestcheck : Bool) (tags : Option (List Nat)) : Op

/-- The three lists making up the working set: the active list, the
previously-calculated list (also active for `crest_routine`), and the
removed/stored list. -/
structure ConfState where
  conformers      : List Conf
  prev_calculated : List Conf
  store_confs     : List Conf

/-- Apply one operation to the working set. -/
def applyOp (s : ConfState) : Op → ConfState
  | Op.newFolders fails =>
      let (confs', store') := new_folders s.conformers s.store_confs fails
      ⟨confs', s.prev_calculated, store'⟩
  | Op.crest crestcheck tags =>
      let (confs', prev', store') :=
        crest_routine crestcheck tags s.conformers s.prev_calculated s.store_confs
      ⟨confs', prev', store'⟩

/-- Run a sequence of operations. -/
def runOps (s : ConfState) (ops : List Op) : ConfState := ops.foldl applyOp s

/-- All conformer ids in the working set, actives first. -/
def ConfState.allIds (s : ConfState) : List Nat :=
  (s.conformers ++ s.prev_calculated ++ s.store_confs).map Conf.id

/-- Ids on the active side (currently iterated lists). -/
def ConfState.activeIds (s : ConfState) : List Nat :=
  (s.conformers ++ s.prev_calculated).map Conf.id

/-- Ids on the removed/stored side. -/
def ConfState.storedIds (s : ConfState) : List Nat :=
  s.store_confs.map Conf.id

/-! ## The `conformers.xyz` trajectory written by `crest_routine`
(lines 676–698) -/

/-- One block of the written trajectory: the atom-count line, the energy
line tagged `!CONF<id>`, and the coordinate lines. -/
structure Block where
  nat    : Nat
  energy : ℚ
  tag    : Nat
  lines  : List String
deriving DecidableEq

/-- The block written for one conformer; `geom id = (conf_xyz, nat)` is
the result of `t2x` on the conformer's folder. -/
def mkBlock (geom : Nat → List String × Nat) (c : Conf) : Block :=
  { nat := (geom c.id).2, energy := c.energy, tag := c.id, lines := (geom c.id).1 }

/-- The sequence of blocks `crest_routine` writes into `conformers.xyz`:
`allconfs` is the energy-sorted merge of `conformers` and
`prev_calculated`, and the writing loop over `allconfs` appears twice,
verbatim, in the source. -/
def conformersXyz (geom : Nat → List String × Nat) (conformers prev_calculated : List Conf) :
    List Block :=
  let allconfs := sortKey Conf.energy (conformers ++ prev_calculated)
  let pass1 := allconfs.foldl (fun out c => out ++ [mkBlock geom c]) []
  allconfs.foldl (fun out c => out ++ [mkBlock geom c]) pass1

/-! ## `rank_simple` / `rankdata` (utilities.py lines 472–498) -/

/-- `vector.__getitem__` as a total key (every access in `rankdata` is in
bounds). -/
def vecKey (a : List ℚ) (r : Nat) : ℚ := a.getD r 0

/-- `rank_simple(vector) = sorted(range(len(vector)), key=vector.__getitem__)`. -/
def rank_simple (a : List ℚ) : List Nat :=
  sortKey (vecKey a) (List.range a.length)

/-- The inner assignment loop of `rankdata`:
`for j in range(i - dupcount + 1, i + 1): newarray[ivec[j]] = averank`. -/
def assignRun (ivec : List Nat) (averank : ℚ) (lo len : Nat) (arr : List ℚ) : List ℚ :=
  (List.range' lo len).foldl (fun acc j => acc.set (ivec.getD j 0) averank) arr

/-- The main loop of `rankdata` over `i in range(n)`: `sumranks += i` and
`dupcount += 1` happen first (inlined below), then a tie run is closed
when `i == n - 1 or svec[i] != svec[i+1]`, assigning
`averank = sumranks / dupcount + 1` to the run's positions and resetting
the accumulators. -/
def rankLoop (n : Nat) (svec : List ℚ) (ivec : List Nat)
    (i sumranks dupcount : Nat) (arr : List ℚ) : List ℚ :=
  if i < n then
    if i = n - 1 ∨ svec.getD i 0 ≠ svec.getD (i + 1) 0 then
      rankLoop n svec ivec (i + 1) 0 0
        (assignRun ivec (((sumranks + i : Nat) : ℚ) / ((dupcount + 1 : Nat) : ℚ) + 1)
          (i + 1 - (dupcount + 1)) (dupcount + 1) arr)
    else
      rankLoop n svec ivec (i + 1) (sumranks + i) (dupcount + 1) arr
  else arr
termination_by n - i

/-- `rankdata(a)`. -/
def rankdata (a : List ℚ) : List ℚ :=
  let n := a.length
  let ivec := rank_simple a
  let svec := ivec.map (vecKey a)
  rankLoop n svec ivec 0 0 0 (List.replicate n 0)

/-- The sorted value vector `svec = [a[rank] for rank in ivec]` of
`rankdata` — the values of `a` in stable ascending order. -/
def sortedVals (a : List ℚ) : List ℚ :=
  (rank_simple a).map (vecKey a)

/-- The tie group of a value `v`: the (0-based) positions of the stable
ascending sort holding `v`. -/
def tieGroup (a : List ℚ) (v : ℚ) : Finset Nat :=
  (Finset.range a.length).filter (fun q => (sortedVals a).getD q 0 = v)

/-- The average of the 1-based positions the tie group of `v` occupies in
the stable ascending sort — the rank value claim C4 specifies. -/
def tieGroupAvg (a : List ℚ) (v : ℚ) : ℚ :=
  (∑ q ∈ tieGroup a v, ((q : ℚ) + 1)) / ((tieGroup a v).card : ℚ)

/-! ## `splitting` / `move_recursively` (utilities.py lines 330–368)

A filename is modelled as its list of characters. -/

/-- A filename. -/
abbrev Name := List Char

/-- Python's substring test `needle in haystack`. -/
def isSub (needle : Name) : Name → Bool
  | [] => needle.isEmpty
  | c :: rest => needle.isPrefixOf (c :: rest) || isSub needle rest

/-- Helper for `rsplitDot`: on a reversed name, split at the first `'.'`
(i.e. the last `'.'` of the original), returning
(chars before the dot, chars after the dot), both still reversed. -/
def breakDot : Name → Option (Name × Name)
  | [] => none
  | c :: cs =>
      if c = '.' then some ([], cs)
      else match breakDot cs with
        | some (suf, pre) => some (c :: suf, pre)
        | none => none

/-- `item.rsplit(".", 1)`: `(stem, some suffix)` when the name contains a
dot, `(item, none)` otherwise (Python then returns the one-element list
`[item]`). -/
def rsplitDot (s : Name) : Name × Option Name :=
  match breakDot s.reverse with
  | some (sufRev, preRev) => (preRev.reverse, some sufRev.reverse)
  | none => (s, none)

/-- `int(s)` for a digit string (the only shapes fed to it here are
numeric backup suffixes and words like `"save"`); `none` models
`ValueError`. -/
def parseNatDigits (s : Name) : Option Nat :=
  if s.isEmpty then none
  else if s.all Char.isDigit then
    some (s.foldl (fun acc c => 10 * acc + (c.toNat - 48)) 0)
  else none

/-- `int(s)` including a possible leading minus sign. -/
def parseInt : Name → Option Int
  | '-' :: rest => (parseNatDigits rest).map (fun n => -(n : Int))
  | s => (parseNatDigits s).map (fun n => (n : Int))

/-- `str(k)` for an integer. -/
def intStr (k : Int) : Name :=
  if k < 0 then '-' :: Nat.toDigits 10 k.natAbs else Nat.toDigits 10 k.toNat

/-- `splitting(item) = int(item.rsplit(".", 1)[1])`, with `ValueError`
mapped to `0` by the caller-side `except`.  (On a dot-free name Python
would raise an uncaught `IndexError`; `move_recursively` only applies
`splitting` to names that passed the `filename + "." in item` filter, so
that case is unreachable and mapped to `0` here.) -/
def splitting (item : Name) : Int :=
  (((rsplitDot item).2.map (fun suf => (parseInt suf).getD 0)).getD 0)

/-- Insert `x` after every element whose `splitting` key is `≥ key x`:
stable *descending* insertion, matching
`newfiles.sort(key=splitting, reverse=True)`. -/
def insKeyDesc (x : Name) : List Name → List Name
  | [] => [x]
  | y :: rest => if splitting x ≤ splitting y then y :: insKeyDesc x rest
                 else x :: y :: rest

/-- Python's stable descending `sort(key=splitting, reverse=True)`. -/
def sortSplittingDesc (l : List Name) : List Name :=
  l.foldl (fun acc x => insKeyDesc x acc) []

/-- `shutil.move(src, dst)` on a directory listing: the destination is
overwritten if present, and the source entry is renamed in place. -/
def shutilMove (dir : List Name) (src dst : Name) : List Name :=
  (dir.filter (fun x => x ≠ dst)).map (fun x => if x = src then dst else x)

/-- One iteration of the backup loop of `move_recursively`: re-split the
name at its last dot, skip it if the suffix is not an integer
(`except ValueError: continue`), otherwise move `stem.k` to `stem.(k+1)`. -/
def backupStep (dir : List Name) (item : Name) : List Name :=
  (((rsplitDot item).2.bind parseInt).map
    (fun k => shutilMove dir item ((rsplitDot item).1 ++ '.' :: intStr (k + 1)))).getD dir

/-- `move_recursively(path, filename)` on the directory listing `files`:
select the names containing `filename + "."`, process them by descending
numeric suffix, renaming `stem.k` to `stem.(k+1)` and skipping names
whose suffix is not an integer; finally rename `filename` itself to
`filename.1` if present. -/
def move_recursively (files : List Name) (filename : Name) : List Name :=
  let newfiles := files.filter (fun item => isSub (filename ++ ['.']) item)
  let dir1 := (sortSplittingDesc newfiles).foldl backupStep files
  if filename ∈ files then shutilMove dir1 filename (filename ++ ['.', '1'])
  else dir1

/-! ## Theorems -/

/-- C9: `check_tasks` computes `failRate = countFailed / countTotal` and:
terminates the process (`sys.exit(1)`) when there are no results;
terminates when `failRate ≥ thresh` and the hard-stop flag is set; prints
only a non-fatal warning when `failRate ≥ thresh` without the flag; is
silent when `failRate` is below the threshold; the default threshold is
0.25. -/
theorem check_tasks_spec (results : List Bool) (check : Bool) (thresh : ℚ) :
    (results.length = 0 → check_tasks results check thresh = TaskOutcome.exit1) ∧
    (results.length ≠ 0 →
      thresh ≤ ((results.filter (fun success => !success)).length : ℚ) / (results.length : ℚ) →
      (check = true → check_tasks results check thresh = TaskOutcome.exit1) ∧
      (check = false → check_tasks results check thresh = TaskOutcome.warning)) ∧
    (results.length ≠ 0 →
      ((results.filter (fun success => !success)).length : ℚ) / (results.length : ℚ) < thresh →
      check_tasks results check thresh = TaskOutcome.silent) ∧
    check_tasks_default_thresh = 25 / 100 := by
  refine ⟨?_, ?_, ?_, by norm_num [check_tasks_default_thresh]⟩
  · intro h
    simp [check_tasks, h]
  · intro h hrate
    constructor <;> intro hc <;>
      simp [check_tasks, h, hc, ge_iff_le, hrate]
  · intro h hrate
    simp [check_tasks, h, ge_iff_le, not_le.mpr hrate]

/-- Witness for C9 at the spec's example: 5 results with 2 failures
(rate 0.4 ≥ 0.25) terminate in strict mode; with 1 failure (0.2 < 0.25)
nothing happens. -/
theorem check_tasks_spec_witness :
    check_tasks [true, true, true, false, false] true (25 / 100) = TaskOutcome.exit1 ∧
    check_tasks [true, true, true, true, false] true (25 / 100) = TaskOutcome.silent := by
  constructor
  · exact ((check_tasks_spec [true, true, true, false, false] true (25 / 100)).2.1
      (by decide) (by norm_num)).1 rfl
  · exact (check_tasks_spec [true, true, true, true, false] true (25 / 100)).2.2.1
      (by decide) (by norm_num)

/-- C5 (counterexample): with `A = [0, 1]` and `B = [5]` the lengths
mismatch and `pearson` does *not* return a best-effort coefficient — the
indexing `B[i]` raises an uncaught `IndexError` (modelled by `none`). -/
theorem pearson_longer_A_fails :
    pearsonReportsMismatch [0, 1] [5] = true ∧ pearson [0, 1] [5] = none := by
  constructor
  · rfl
  · simp [pearson]

/-- C5 (amended): when `2 ≤ len(A) ≤ len(B)`, `pearson` reports any
length mismatch as an error but still returns a coefficient, its product
sum running over `len(A)` (the shorter list); for `len(B) < len(A)` or
`len(A) < 2` it raises instead. -/
theorem pearson_mismatch_best_effort (A B : List ℝ)
    (hA : 2 ≤ A.length) (hAB : A.length ≤ B.length) :
    (A.length ≠ B.length → pearsonReportsMismatch A B = true) ∧
    (pearson A B).isSome := by
  constructor
  · intro h
    simp [pearsonReportsMismatch, h]
  · have h0 : A.length ≠ 0 := by omega
    have h1 : A.length ≠ 1 := by omega
    have h2 : ¬ B.length < A.length := by omega
    simp only [pearson, h0, h1, h2, if_false]
    split <;> simp

/-- Witness for C5's amended theorem at `A = [1, 2]`, `B = [0, 1, 7]`. -/
theorem pearson_mismatch_best_effort_witness :
    (([1, 2] : List ℝ).length ≠ ([0, 1, 7] : List ℝ).length →
      pearsonReportsMismatch [1, 2] [0, 1, 7] = true) ∧
    (pearson [1, 2] [0, 1, 7]).isSome :=
  pearson_mismatch_best_effort [1, 2] [0, 1, 7] (by decide) (by decide)

/-- C7: when the external tool's tags file is missing or unreadable
(`tags = none`, the code reports the error and `store` stays unbound),
`crest_routine` moves nothing: the active list, the previously-calculated
list and the stored list are all returned unchanged, even with
`crestcheck` enabled. -/
theorem crest_routine_missing_tags_no_removal (crestcheck : Bool)
    (conformers prev_calculated store_confs : List Conf) :
    crest_routine crestcheck none conformers prev_calculated store_confs =
      (conformers, prev_calculated, store_confs) := by
  cases crestcheck <;> rfl

/-! ### Permutation and order lemmas for the stable insertion sort -/

theorem insKey_perm {α : Type} (key : α → ℚ) (x : α) (l : List α) :
    (insKey key x l).Perm (x :: l) := by
  induction l with
  | nil => simp [insKey]
  | cons y rest ih =>
      by_cases h : key y ≤ key x
      · simpa [insKey, h] using ((ih.cons y).trans (List.Perm.swap x y rest))
      · simp [insKey, h]

theorem sortKey_perm {α : Type} (key : α → ℚ) (l : List α) :
    (sortKey key l).Perm l := by
  suffices h : ∀ acc : List α,
      (l.foldl (fun acc x => insKey key x acc) acc).Perm (acc ++ l) by
    simpa using h []
  induction l with
  | nil => simp
  | cons y rest ih =>
      intro acc
      simp only [List.foldl_cons]
      refine (ih (insKey key y acc)).trans ?_
      have h1 : (insKey key y acc ++ rest).Perm ((y :: acc) ++ rest) :=
        (insKey_perm key y acc).append_right rest
      refine h1.trans ?_
      simpa using (@List.perm_middle _ y acc rest).symm

theorem sortKey_pairwise {α : Type} (key : α → ℚ) (l : List α) :
    (sortKey key l).Pairwise (fun p q => key p ≤ key q) := by
  have hins : ∀ (x : α) (acc : List α), acc.Pairwise (fun p q => key p ≤ key q) →
      (insKey key x acc).Pairwise (fun p q => key p ≤ key q) := by
    intro x acc
    induction acc with
    | nil => simp [insKey]
    | cons y rest ih =>
        intro hp
        rw [List.pairwise_cons] at hp
        by_cases h : key y ≤ key x
        · rw [insKey, if_pos h, List.pairwise_cons]
          refine ⟨?_, ih hp.2⟩
          intro z hz
          have hz' : z = x ∨ z ∈ rest := by
            have := (insKey_perm key x rest).mem_iff.mp hz
            simpa using this
          rcases hz' with rfl | hz'
          · exact h
          · exact hp.1 z hz'
        · rw [insKey, if_neg h, List.pairwise_cons]
          have hxy : key x ≤ key y := le_of_not_le h
          refine ⟨?_, List.pairwise_cons.mpr hp⟩
          intro z hz
          rcases List.mem_cons.mp hz with rfl | hz'
          · exact hxy
          · exact hxy.trans (hp.1 z hz')
  suffices hgen : ∀ acc : List α, acc.Pairwise (fun p q => key p ≤ key q) →
      (l.foldl (fun acc x => insKey key x acc) acc).Pairwise (fun p q => key p ≤ key q) by
    exact hgen [] (by simp)
  induction l with
  | nil => intro acc h; simpa using h
  | cons y rest ih =>
      intro acc h
      simp only [List.foldl_cons]
      exact ih _ (hins y acc h)

/-- `foldl` with singleton appends is `map`. -/
theorem foldl_append_map {α β : Type} (f : α → β) (l : List α) (init : List β) :
    l.foldl (fun out c => out ++ [f c]) init = init ++ l.map f := by
  induction l generalizing init with
  | nil => simp
  | cons c rest ih => simp [ih]

/-- In a list of conformers with pairwise-distinct ids, exactly one entry
carries the id of a member. -/
theorem countP_id_eq_one {l : List Conf} (hnd : (l.map Conf.id).Nodup) {c : Conf}
    (hc : c ∈ l) : l.countP (fun x => x.id = c.id) = 1 := by
  induction l with
  | nil => simp at hc
  | cons h t ih =>
      simp only [List.map_cons, List.nodup_cons] at hnd
      rcases List.mem_cons.mp hc with rfl | hct
      · have ht : t.countP (fun x => x.id = c.id) = 0 := by
          rw [List.countP_eq_zero]
          intro x hx
          simp only [decide_eq_true_eq]
          intro hxc
          exact hnd.1 (hxc ▸ List.mem_map_of_mem Conf.id hx)
        simp [List.countP_cons, ht]
      · have hht : ¬ h.id = c.id := by
          intro he
          exact hnd.1 (he ▸ List.mem_map_of_mem Conf.id hct)
        simp [List.countP_cons, hht, ih hnd.2 hct]

/-- C6: `crest_routine` writes the candidate loop twice, so the combined
`conformers.xyz` holds exactly `2N` blocks for `N` merged candidates, and
(for distinct ids) each candidate's block appears exactly once in each of
the two passes. -/
theorem crest_trajectory_duplicated (geom : Nat → List String × Nat)
    (conformers prev_calculated : List Conf) :
    (conformersXyz geom conformers prev_calculated).length =
      2 * (conformers ++ prev_calculated).length ∧
    (((conformers ++ prev_calculated).map Conf.id).Nodup →
      ∀ c ∈ conformers ++ prev_calculated,
        ((conformersXyz geom conformers prev_calculated).take
            (conformers ++ prev_calculated).length).countP (fun b => b.tag = c.id) = 1 ∧
        ((conformersXyz geom conformers prev_calculated).drop
            (conformers ++ prev_calculated).length).countP (fun b => b.tag = c.id) = 1) := by
  set all := sortKey Conf.energy (conformers ++ prev_calculated) with hall
  have hperm : all.Perm (conformers ++ prev_calculated) :=
    sortKey_perm Conf.energy (conformers ++ prev_calculated)
  have hout : conformersXyz geom conformers prev_calculated =
      all.map (mkBlock geom) ++ all.map (mkBlock geom) := by
    rw [conformersXyz]
    rw [foldl_append_map, foldl_append_map]
    simp [hall]
  have hlen : (all.map (mkBlock geom)).length = (conformers ++ prev_calculated).length := by
    simp [hperm.length_eq]
  constructor
  · rw [hout]
    simp only [List.length_append, hlen]
    ring
  · intro hnd c hc
    have htake : (conformersXyz geom conformers prev_calculated).take
        (conformers ++ prev_calculated).length = all.map (mkBlock geom) := by
      rw [hout, ← hlen, List.take_left]
    have hdrop : (conformersXyz geom conformers prev_calculated).drop
        (conformers ++ prev_calculated).length = all.map (mkBlock geom) := by
      rw [hout, ← hlen, List.drop_left]
    have hcount : (all.map (mkBlock geom)).countP (fun b => b.tag = c.id) = 1 := by
      rw [List.countP_map]
      have hee : (fun x => decide ((mkBlock geom x).tag = c.id)) =
          (fun x : Conf => decide (x.id = c.id)) := by
        funext x
        simp [mkBlock]
      rw [Function.comp_def]
      rw [hee]
      rw [hperm.countP_eq]
      exact countP_id_eq_one hnd hc
    exact ⟨htake ▸ hcount, hdrop ▸ hcount⟩

/-- Witness for C6: two conformers, one active and one previously
calculated. -/
theorem crest_trajectory_duplicated_witness :
    ((conformersXyz (fun _ => ([], 2)) [⟨1, 0⟩] [⟨2, 1⟩]).take
        (([⟨1, 0⟩] ++ [⟨2, 1⟩] : List Conf)).length).countP (fun b => b.tag = (1 : Nat)) = 1 ∧
    ((conformersXyz (fun _ => ([], 2)) [⟨1, 0⟩] [⟨2, 1⟩]).drop
        (([⟨1, 0⟩] ++ [⟨2, 1⟩] : List Conf)).length).countP (fun b => b.tag = (1 : Nat)) = 1 :=
  (crest_trajectory_duplicated (fun _ => ([], 2)) [⟨1, 0⟩] [⟨2, 1⟩]).2
    (by decide) ⟨1, 0⟩ (by decide)

/-! ### Transfer operations preserve the conformer multiset (claim C1) -/

/-- Rotating the last two of three appended lists is a permutation. -/
theorem perm_rotate {α : Type} (x y z : List α) : (x ++ y ++ z).Perm (x ++ z ++ y) := by
  rw [List.append_assoc, List.append_assoc]
  exact List.perm_append_comm.append_left x

/-- Transferring one present element from the front list to the back list
is a permutation of the combined pool. -/
theorem perm_move_one {c : Conf} {confs store_confs : List Conf} (hc : c ∈ confs) :
    (confs.erase c ++ (store_confs ++ [c])).Perm (confs ++ store_confs) := by
  have h1 : (confs.erase c ++ (store_confs ++ [c])).Perm
      (confs.erase c ++ (c :: store_confs)) :=
    (List.perm_append_singleton c store_confs).append_left _
  have h2 : (confs.erase c ++ (c :: store_confs)).Perm
      (c :: (confs.erase c ++ store_confs)) := List.perm_middle
  have h3 : ((c :: confs.erase c) ++ store_confs).Perm (confs ++ store_confs) :=
    (List.perm_cons_erase hc).symm.append_right store_confs
  exact h1.trans (h2.trans h3)

theorem removeLoop_perm (keep : List Nat) (toCheck : List Conf) :
    ∀ (confs store_confs : List Conf),
      ((removeLoop keep toCheck confs store_confs).1 ++
        (removeLoop keep toCheck confs store_confs).2.1).Perm (confs ++ store_confs) := by
  induction toCheck with
  | nil => intro confs store_confs; simp [removeLoop]
  | cons c rest ih =>
      intro confs store_confs
      by_cases hk : c.id ∈ keep
      · simpa [removeLoop, hk] using ih confs store_confs
      · by_cases hc : c ∈ confs
        · simpa [removeLoop, hk, hc] using
            (ih (confs.erase c) (store_confs ++ [c])).trans (perm_move_one hc)
        · simp [removeLoop, hk, hc]

theorem newFoldersLoop_perm (fails : Conf → Bool) :
    ∀ (i : Nat) (conflist store_confs : List Conf),
      ((newFoldersLoop fails i conflist store_confs).1 ++
        (newFoldersLoop fails i conflist store_confs).2).Perm (conflist ++ store_confs) := by
  intro i conflist store_confs
  induction i, conflist, store_confs using newFoldersLoop.induct fails with
  | case1 i conflist store_confs h c hf ih =>
      have hc : c ∈ conflist := List.get_mem conflist _ h
      rw [newFoldersLoop, dif_pos h, if_pos hf]
      exact ih.trans (perm_move_one hc)
  | case2 i conflist store_confs h c hf ih =>
      rw [newFoldersLoop, dif_pos h, if_neg hf]
      exact ih
  | case3 i conflist store_confs h =>
      rw [newFoldersLoop, dif_neg h]

/-- A three-list pool permutation from a permutation of the outer pair. -/
theorem perm_pool {A B C P S : List Conf} (h : (A ++ B).Perm (C ++ S)) :
    (A ++ P ++ B).Perm (C ++ P ++ S) :=
  (perm_rotate A P B).trans ((h.append_right P).trans (perm_rotate C S P))

/-- Any single `new_folders` / `crest_routine` operation permutes the
combined conformer pool. -/
theorem applyOp_perm (s : ConfState) (op : Op) :
    ((applyOp s op).conformers ++ (applyOp s op).prev_calculated ++
      (applyOp s op).store_confs).Perm
      (s.conformers ++ s.prev_calculated ++ s.store_confs) := by
  cases op with
  | newFolders fails =>
      have h := newFoldersLoop_perm fails 0 s.conformers s.store_confs
      simp only [applyOp, new_folders]
      exact perm_pool h
  | crest crestcheck tags =>
      cases crestcheck with
      | false => simp [applyOp, crest_routine]
      | true =>
          cases tags with
          | none => simp [applyOp, crest_routine]
          | some keep =>
              simp only [applyOp, crest_routine]
              rcases h1 : removeLoop keep s.conformers s.conformers s.store_confs with
                ⟨confs', store', aborted⟩
              have hp1 : (confs' ++ store').Perm (s.conformers ++ s.store_confs) := by
                have hh := removeLoop_perm keep s.conformers s.conformers s.store_confs
                rw [h1] at hh
                exact hh
              cases aborted with
              | true =>
                  simp only
                  exact perm_pool hp1
              | false =>
                  have hp2 : ((removeLoop keep s.prev_calculated s.prev_calculated store').1 ++
                      (removeLoop keep s.prev_calculated s.prev_calculated store').2.1).Perm
                      (s.prev_calculated ++ store') :=
                    removeLoop_perm keep s.prev_calculated s.prev_calculated store'
                  simp only
                  rw [List.append_assoc]
                  refine (hp2.append_left confs').trans ?_
                  refine ((@List.perm_append_comm _ s.prev_calculated
                    store').append_left confs').trans ?_
                  rw [← List.append_assoc]
                  exact (hp1.append_right s.prev_calculated).trans
                    (perm_rotate s.conformers s.store_confs s.prev_calculated)

/-- C1: after any sequence of `new_folders`/`crest_routine` operations on
a working set with distinct ids, the id pool is exactly the ids ever
submitted (a permutation of the initial pool — transfers neither
duplicate nor lose an id), ids stay pairwise distinct, and the active
lists are disjoint from the removed/stored list. -/
theorem conf_transfer_invariant (ops : List Op) (s₀ : ConfState)
    (h : s₀.allIds.Nodup) :
    ((runOps s₀ ops).allIds).Perm s₀.allIds ∧
    (runOps s₀ ops).allIds.Nodup ∧
    ∀ i ∈ (runOps s₀ ops).activeIds, i ∉ (runOps s₀ ops).storedIds := by
  have hperm : ∀ (ops : List Op) (s : ConfState), ((runOps s ops).allIds).Perm s.allIds := by
    intro ops
    induction ops with
    | nil => intro s; simp [runOps]
    | cons op rest ih =>
        intro s
        have h1 : runOps s (op :: rest) = runOps (applyOp s op) rest := by
          simp [runOps]
        rw [h1]
        refine (ih (applyOp s op)).trans ?_
        exact (applyOp_perm s op).map Conf.id
  have hp := hperm ops s₀
  have hnd : (runOps s₀ ops).allIds.Nodup := hp.nodup_iff.mpr h
  refine ⟨hp, hnd, ?_⟩
  have hsplit : (runOps s₀ ops).allIds =
      (runOps s₀ ops).activeIds ++ (runOps s₀ ops).storedIds := by
    simp [ConfState.allIds, ConfState.activeIds, ConfState.storedIds]
  rw [hsplit] at hnd
  exact fun i hi => (List.disjoint_of_nodup_append hnd) hi

/-- Witness for C1: a failing folder creation evicts `CONF2`, then a
CREGEN pass with `keep = {1}` evicts `CONF3`; ids stay a permutation of
`{1, 2, 3}`, distinct, and the sides disjoint. -/
theorem conf_transfer_invariant_witness :
    ((runOps ⟨[⟨1, 0⟩, ⟨2, 0⟩], [⟨3, 1⟩], []⟩
        [Op.newFolders (fun c => c.id = 2), Op.crest true (some [1])]).allIds).Perm
      (ConfState.allIds ⟨[⟨1, 0⟩, ⟨2, 0⟩], [⟨3, 1⟩], []⟩) ∧
    (runOps ⟨[⟨1, 0⟩, ⟨2, 0⟩], [⟨3, 1⟩], []⟩
        [Op.newFolders (fun c => c.id = 2), Op.crest true (some [1])]).allIds.Nodup ∧
    ∀ i ∈ (runOps ⟨[⟨1, 0⟩, ⟨2, 0⟩], [⟨3, 1⟩], []⟩
        [Op.newFolders (fun c => c.id = 2), Op.crest true (some [1])]).activeIds,
      i ∉ (runOps ⟨[⟨1, 0⟩, ⟨2, 0⟩], [⟨3, 1⟩], []⟩
        [Op.newFolders (fun c => c.id = 2), Op.crest true (some [1])]).storedIds :=
  conf_transfer_invariant [Op.newFolders (fun c => c.id = 2), Op.crest true (some [1])]
    ⟨[⟨1, 0⟩, ⟨2, 0⟩], [⟨3, 1⟩], []⟩ (by decide)

/-! ### Boltzmann weights (claims C2, C3) -/

/-- The two conformers exhibiting the `free_energy`-vs-`property` slip:
equal free energies but different `xtb_energy`. -/
noncomputable def bugC1 : EConf := { id := 1, free_energy := some 0, xtb_energy := some 0 }

/-- See `bugC1`. -/
noncomputable def bugC2 : EConf := { id := 2, free_energy := some 0, xtb_energy := some (-1) }

/-- C2 (code bug): called with `property = "xtb_energy"` on two conformers
of equal `free_energy` but different `xtb_energy`, the code assigns both
conformers weight `1/2` — the exponent reads `item.free_energy`, not the
chosen property — while the specified formula (`E_i` the chosen property)
gives the first conformer a weight strictly below `1/2`. -/
theorem calc_boltzmannweights_ignores_property :
    (∃ out, calc_boltzmannweights [bugC1, bugC2] PropKey.xtb_energy 298.15 = some out ∧
      out.map EConf.bm_weight = [some (1 / 2), some (1 / 2)]) ∧
    specClaimWeight [bugC1, bugC2] PropKey.xtb_energy 298.15 bugC1 < 1 / 2 := by
  have hT : tCoerce (298.15 : ℝ) = 298.15 := by rw [tCoerce, if_neg (by norm_num)]
  have hmin : minProp [bugC1, bugC2] PropKey.xtb_energy = some (-1) := by
    rw [minProp]
    simp only [bugC1, bugC2, EConf.getProp, List.filter, Option.isSome, List.map]
    simp [List.min?, min_def]
  have hb1 : bterm (-1) 298.15 bugC1 = Real.exp (-((0 - -1) * AU2J) / (KB * 298.15)) := by
    rw [bterm]
    simp only [bugC1, Option.getD_some, Option.getD_none, one_mul]
  have hb2 : bterm (-1) 298.15 bugC2 = Real.exp (-((0 - -1) * AU2J) / (KB * 298.15)) := by
    rw [bterm]
    simp only [bugC2, Option.getD_some, Option.getD_none, one_mul]
  have ht0 : 0 < Real.exp (-((0 - -1) * AU2J) / (KB * 298.15)) := Real.exp_pos _
  have hsum : (([bugC1, bugC2] : List EConf).map (bterm (-1) 298.15)).sum =
      Real.exp (-((0 - -1) * AU2J) / (KB * 298.15)) +
        Real.exp (-((0 - -1) * AU2J) / (KB * 298.15)) := by
    simp only [List.map_cons, List.map_nil, List.sum_cons, List.sum_nil, add_zero, hb1, hb2]
  have hres : calc_boltzmannweights [bugC1, bugC2] PropKey.xtb_energy 298.15 =
      some (([bugC1, bugC2] : List EConf).map (fun c =>
        { c with bm_weight := some (bterm (-1) 298.15 c /
            (([bugC1, bugC2] : List EConf).map (bterm (-1) 298.15)).sum) })) := by
    rw [calc_boltzmannweights, dif_neg (by simp), hmin, Option.some_bind, hT]
    rw [if_neg (by simp [bugC1, bugC2]), if_neg (by rw [hsum]; positivity)]
  have hhalf : Real.exp (-((0 - -1) * AU2J) / (KB * 298.15)) /
      (Real.exp (-((0 - -1) * AU2J) / (KB * 298.15)) +
        Real.exp (-((0 - -1) * AU2J) / (KB * 298.15))) = 1 / 2 := by
    rw [div_eq_iff (by positivity)]
    ring
  constructor
  · refine ⟨_, hres, ?_⟩
    simp only [List.map_cons, List.map_nil, List.sum_cons, List.sum_nil, add_zero,
      hb1, hb2, hhalf]
  · have harg : -(((0 : ℝ) - -1) * AU2J) / (KB * 298.15) < 0 := by
      have h1 : ((0 : ℝ) - -1) = 1 := by norm_num
      rw [h1, one_mul]
      apply div_neg_of_neg_of_pos
      · linarith [AU2J_pos]
      · nlinarith [KB_pos]
    have htlt : Real.exp (-(((0 : ℝ) - -1) * AU2J) / (KB * 298.15)) < 1 :=
      Real.exp_lt_one_iff.mpr harg
    have hs1 : specTerm PropKey.xtb_energy (-1) 298.15 bugC1 =
        Real.exp (-((0 - -1) * AU2J) / (KB * 298.15)) := by
      rw [specTerm]
      simp only [bugC1, EConf.getProp, Option.getD_some, Option.getD_none, one_mul]
    have hs2 : specTerm PropKey.xtb_energy (-1) 298.15 bugC2 = 1 := by
      rw [specTerm]
      simp only [bugC2, EConf.getProp, Option.getD_some, Option.getD_none, one_mul]
      norm_num
    rw [specClaimWeight, hmin]
    simp only [Option.getD_some, List.map_cons, List.map_nil, List.sum_cons, List.sum_nil,
      add_zero, hs1, hs2]
    rw [div_lt_iff (by linarith)]
    linarith

/-- The two conformers exhibiting a weight outside `[0, 1]`: one of them
has a negative degeneracy attribute `gi`. -/
noncomputable def negGiC1 : EConf := { id := 1, free_energy := some 0 }

/-- See `negGiC1`. -/
noncomputable def negGiC2 : EConf := { id := 2, free_energy := some 0, gi := some (-(1 / 2)) }

/-- C3 (counterexample): a two-conformer list with one negative `gi`
completes — `bsum = 1/2 ≠ 0` — yet assigns `bm_weight = 2 ∉ [0, 1]`
(and `-1` to the other), refuting "every assigned weight lies in [0,1]
and the weights sum to 1" as a statement about every completing run. -/
theorem calc_boltzmannweights_out_of_range :
    ∃ out, calc_boltzmannweights [negGiC1, negGiC2] PropKey.free_energy 298.15 = some out ∧
      out.map EConf.bm_weight = [some 2, some (-1)] ∧ ¬ ((2 : ℝ) ≤ 1) := by
  have hT : tCoerce (298.15 : ℝ) = 298.15 := by rw [tCoerce, if_neg (by norm_num)]
  have hmin : minProp [negGiC1, negGiC2] PropKey.free_energy = some 0 := by
    rw [minProp]
    simp only [negGiC1, negGiC2, EConf.getProp, List.filter, Option.isSome, List.map]
    simp [List.min?, min_def]
  have hb1 : bterm 0 298.15 negGiC1 = 1 := by
    rw [bterm]
    simp [negGiC1]
  have hb2 : bterm 0 298.15 negGiC2 = -(1 / 2) := by
    rw [bterm]
    simp [negGiC2]
  have hsum : (([negGiC1, negGiC2] : List EConf).map (bterm 0 298.15)).sum = 1 / 2 := by
    simp only [List.map_cons, List.map_nil, List.sum_cons, List.sum_nil, add_zero, hb1, hb2]
    norm_num
  have hres : calc_boltzmannweights [negGiC1, negGiC2] PropKey.free_energy 298.15 =
      some (([negGiC1, negGiC2] : List EConf).map (fun c =>
        { c with bm_weight := some (bterm 0 298.15 c /
            (([negGiC1, negGiC2] : List EConf).map (bterm 0 298.15)).sum) })) := by
    rw [calc_boltzmannweights, dif_neg (by simp), hmin, Option.some_bind, hT]
    rw [if_neg (by simp [negGiC1, negGiC2]), if_neg (by rw [hsum]; norm_num)]
  refine ⟨_, hres, ?_, by norm_num⟩
  simp only [List.map_cons, List.map_nil, hb1, hb2, hsum]
  norm_num

/-- Over a list of `EConf`s, setting every `bm_weight` and reading it back
yields the set values. -/
theorem filterMap_bm_of_set (h : EConf → ℝ) (l : List EConf) :
    List.filterMap EConf.bm_weight (l.map (fun c => { c with bm_weight := some (h c) })) =
      l.map h := by
  induction l with
  | nil => simp
  | cons a t ih => simp [List.filterMap_cons, ih]

/-- Distributing a list sum over a common divisor. -/
theorem sum_map_div {α : Type} (l : List α) (f : α → ℝ) (c : ℝ) :
    (l.map (fun x => f x / c)).sum = (l.map f).sum / c := by
  induction l with
  | nil => simp
  | cons a t ih => simp [ih, add_div]

/-- C3 (amended): whenever `calc_boltzmannweights` completes on a
conformer list whose degeneracy factors `gi` (default `1.0`) are all
positive, every assigned `bm_weight` lies in `[0, 1]` and the weights sum
to `1`; a singleton list always gets the single weight exactly `1.0`,
regardless of its energies, the chosen property and the temperature. -/
theorem calc_boltzmannweights_range_sum (confs : List EConf) (property : PropKey) (T : ℝ)
    (out : List EConf)
    (hgi : ∀ c ∈ confs, 0 < c.gi.getD 1)
    (hrun : calc_boltzmannweights confs property T = some out) :
    (∀ c ∈ out, ∃ w, c.bm_weight = some w ∧ 0 ≤ w ∧ w ≤ 1) ∧
    (out.filterMap EConf.bm_weight).sum = 1 ∧
    (confs.length = 1 → out.map EConf.bm_weight = [some 1]) := by
  by_cases h1 : confs.length = 1
  · rw [calc_boltzmannweights, dif_pos h1] at hrun
    obtain rfl : out = [{ confs.head (by intro hc; simp [hc] at h1) with bm_weight := some 1 }] :=
      (Option.some_inj.mp hrun).symm
    refine ⟨?_, by simp, fun _ => by simp⟩
    intro c hc
    simp only [List.mem_singleton] at hc
    subst hc
    exact ⟨1, rfl, by norm_num, by norm_num⟩
  · rw [calc_boltzmannweights, dif_neg h1] at hrun
    rcases hmin : minProp confs property with _ | minfree
    · rw [hmin] at hrun
      simp at hrun
    · rw [hmin, Option.some_bind] at hrun
      by_cases hany : (confs.any fun c => c.free_energy.isNone) = true
      · rw [if_pos hany] at hrun
        exact absurd hrun (by simp)
      · rw [if_neg hany] at hrun
        by_cases hb0 : (confs.map (bterm minfree (tCoerce T))).sum = 0
        · rw [if_pos hb0] at hrun
          exact absurd hrun (by simp)
        · rw [if_neg hb0] at hrun
          have hout : out = confs.map
              (fun c => { c with
                bm_weight := some (bterm minfree (tCoerce T) c /
                  (confs.map (bterm minfree (tCoerce T))).sum) }) :=
            (Option.some_inj.mp hrun).symm
          have hconfs_ne : confs ≠ [] := by
            intro hnil
            rw [hnil] at hmin
            simp [minProp] at hmin
          have hterm_pos : ∀ c ∈ confs, 0 < bterm minfree (tCoerce T) c := by
            intro c hc
            have hg := hgi c hc
            have he := Real.exp_pos
              (-((c.free_energy.getD 0 - minfree) * AU2J) / (KB * tCoerce T))
            exact mul_pos hg he
          have hsum_pos : 0 < (confs.map (bterm minfree (tCoerce T))).sum := by
            refine List.sum_pos _ ?_ (by simpa using hconfs_ne)
            intro x hx
            obtain ⟨c, hc, rfl⟩ := List.mem_map.mp hx
            exact hterm_pos c hc
          refine ⟨?_, ?_, fun hlen => absurd hlen h1⟩
          · intro c hc
            rw [hout] at hc
            obtain ⟨c₀, hc₀, rfl⟩ := List.mem_map.mp hc
            refine ⟨_, rfl, ?_, ?_⟩
            · exact le_of_lt (div_pos (hterm_pos c₀ hc₀) hsum_pos)
            · rw [div_le_one hsum_pos]
              exact List.single_le_sum
                (fun x hx => by
                  obtain ⟨c', hc', rfl⟩ := List.mem_map.mp hx
                  exact le_of_lt (hterm_pos c' hc'))
                _ (List.mem_map_of_mem _ hc₀)
          · rw [hout, filterMap_bm_of_set, sum_map_div, div_self hb0]

/-- Witness for the amended C3 theorem: a singleton conformer list gets
weight exactly `1.0`, in range and summing to `1`. -/
theorem calc_boltzmannweights_range_sum_witness :
    (∀ c ∈ ([{ id := 1, free_energy := some 0, bm_weight := some 1 }] : List EConf),
      ∃ w, c.bm_weight = some w ∧ 0 ≤ w ∧ w ≤ 1) ∧
    (([{ id := 1, free_energy := some 0, bm_weight := some 1 }] : List EConf).filterMap
      EConf.bm_weight).sum = 1 ∧
    (([({ id := 1, free_energy := some 0 } : EConf)] : List EConf).length = 1 →
      ([{ id := 1, free_energy := some 0, bm_weight := some 1 }] : List EConf).map
        EConf.bm_weight = [some 1]) :=
  calc_boltzmannweights_range_sum [{ id := 1, free_energy := some 0 }] PropKey.free_energy 0
    [{ id := 1, free_energy := some 0, bm_weight := some 1 }]
    (fun c hc => by
      simp only [List.mem_singleton] at hc
      subst hc
      norm_num)
    rfl

/-! ### `move_recursively` (claim C8) -/

theorem breakDot_append (pre suf : Name) (h : '.' ∉ suf) :
    breakDot (suf ++ '.' :: pre) = some (suf, pre) := by
  induction suf with
  | nil => simp [breakDot]
  | cons c cs ih =>
      have hc : ¬ c = '.' := fun he => h (he ▸ List.mem_cons_self c cs)
      have hcs : '.' ∉ cs := fun hm => h (List.mem_cons_of_mem c hm)
      simp [breakDot, hc, ih hcs]

theorem rsplitDot_append (stem suf : Name) (h : '.' ∉ suf) :
    rsplitDot (stem ++ '.' :: suf) = (stem, some suf) := by
  have hrev : (stem ++ '.' :: suf).reverse = suf.reverse ++ '.' :: stem.reverse := by
    rw [List.reverse_append, List.reverse_cons, List.append_assoc]
    rfl
  have hns : '.' ∉ suf.reverse := by simpa using h
  rw [rsplitDot, hrev, breakDot_append _ _ hns]
  simp

theorem isSub_of_isPrefixOf {needle hay : Name} (h : needle.isPrefixOf hay = true) :
    isSub needle hay = true := by
  cases hay with
  | nil =>
      have : needle = [] := by
        cases needle with
        | nil => rfl
        | cons c cs => simp [List.isPrefixOf] at h
      simp [isSub, this]
  | cons c t => simp [isSub, h]

theorem isSub_prefix (f rest : Name) : isSub (f ++ ['.']) (f ++ '.' :: rest) = true := by
  apply isSub_of_isPrefixOf
  rw [List.isPrefixOf_iff_prefix]
  refine ⟨rest, ?_⟩
  simp

theorem infix_of_isSub {needle hay : Name} (h : isSub needle hay = true) : needle <:+: hay := by
  induction hay with
  | nil =>
      have : needle = [] := by simpa [isSub, List.isEmpty_iff] using h
      simp [this]
  | cons c t ih =>
      simp only [isSub, Bool.or_eq_true] at h
      rcases h with h | h
      · exact (List.isPrefixOf_iff_prefix.mp h).isInfix
      · exact List.infix_cons (ih h)

theorem isSub_self_dot (f : Name) : isSub (f ++ ['.']) f = false := by
  cases he : isSub (f ++ ['.']) f with
  | false => rfl
  | true =>
      have hlen := (infix_of_isSub he).length_le
      simp at hlen

theorem backupStep_num (dir : List Name) (f suf : Name) (k : Int)
    (hdot : '.' ∉ suf) (hp : parseInt suf = some k) :
    backupStep dir (f ++ '.' :: suf) =
      shutilMove dir (f ++ '.' :: suf) (f ++ '.' :: intStr (k + 1)) := by
  unfold backupStep
  rw [rsplitDot_append f suf hdot]
  simp [hp]

theorem backupStep_skip (dir : List Name) (f suf : Name)
    (hdot : '.' ∉ suf) (hp : parseInt suf = none) :
    backupStep dir (f ++ '.' :: suf) = dir := by
  unfold backupStep
  rw [rsplitDot_append f suf hdot]
  simp [hp]

theorem splitting_append (f suf : Name) (hdot : '.' ∉ suf) :
    splitting (f ++ '.' :: suf) = (parseInt suf).getD 0 := by
  unfold splitting
  rw [rsplitDot_append f suf hdot]
  simp

/-- C8: on a directory `{f, f.1, f.3}`, `move_recursively` renames
`f.3 → f.4` first, then `f.1 → f.2`, then `f → f.1` — descending numeric
suffixes, so no rename target collides — and a name with a non-numeric
suffix such as `f.save` is left untouched. -/
theorem move_recursively_rotates (f : Name) :
    move_recursively [f, f ++ ['.', '1'], f ++ ['.', '3']] f =
      [f ++ ['.', '1'], f ++ ['.', '2'], f ++ ['.', '4']] ∧
    move_recursively [f, f ++ ['.', '1'], f ++ ['.', '3'], f ++ ['.', 's', 'a', 'v', 'e']] f =
      [f ++ ['.', '1'], f ++ ['.', '2'], f ++ ['.', '4'], f ++ ['.', 's', 'a', 'v', 'e']] := by
  have hsp1 : splitting (f ++ ['.', '1']) = 1 := by
    rw [splitting_append f ['1'] (by decide)]
    decide
  have hsp3 : splitting (f ++ ['.', '3']) = 3 := by
    rw [splitting_append f ['3'] (by decide)]
    decide
  have hsps : splitting (f ++ ['.', 's', 'a', 'v', 'e']) = 0 := by
    rw [splitting_append f ['s', 'a', 'v', 'e'] (by decide)]
    decide
  have hb3 : ∀ dir : List Name, backupStep dir (f ++ ['.', '3']) =
      shutilMove dir (f ++ ['.', '3']) (f ++ ['.', '4']) := by
    intro dir
    have := backupStep_num dir f ['3'] 3 (by decide) (by decide)
    simpa using this
  have hb1 : ∀ dir : List Name, backupStep dir (f ++ ['.', '1']) =
      shutilMove dir (f ++ ['.', '1']) (f ++ ['.', '2']) := by
    intro dir
    have := backupStep_num dir f ['1'] 1 (by decide) (by decide)
    simpa using this
  have hbs : ∀ dir : List Name, backupStep dir (f ++ ['.', 's', 'a', 'v', 'e']) = dir :=
    fun dir => backupStep_skip dir f ['s', 'a', 'v', 'e'] (by decide) (by decide)
  constructor
  · rw [move_recursively]
    simp only [List.filter_cons, List.filter_nil, isSub_self_dot, isSub_prefix,
      Bool.false_eq_true, if_false, if_true]
    rw [show sortSplittingDesc [f ++ ['.', '1'], f ++ ['.', '3']] =
        [f ++ ['.', '3'], f ++ ['.', '1']] by
      simp [sortSplittingDesc, insKeyDesc, hsp1, hsp3]]
    simp only [List.foldl_cons, List.foldl_nil, hb3, hb1]
    rw [if_pos (List.mem_cons_self f _)]
    simp [shutilMove, List.filter_cons, List.append_cancel_left_eq,
      List.self_eq_append_right, List.append_right_eq_self]
  · rw [move_recursively]
    simp only [List.filter_cons, List.filter_nil, isSub_self_dot, isSub_prefix,
      Bool.false_eq_true, if_false, if_true]
    rw [show sortSplittingDesc
        [f ++ ['.', '1'], f ++ ['.', '3'], f ++ ['.', 's', 'a', 'v', 'e']] =
        [f ++ ['.', '3'], f ++ ['.', '1'], f ++ ['.', 's', 'a', 'v', 'e']] by
      simp [sortSplittingDesc, insKeyDesc, hsp1, hsp3, hsps]]
    simp only [List.foldl_cons, List.foldl_nil, hb3, hb1, hbs]
    rw [if_pos (List.mem_cons_self f _)]
    simp [shutilMove, List.filter_cons, List.append_cancel_left_eq,
      List.self_eq_append_right, List.append_right_eq_self]

/-! ### `rankdata` (claims C4, C10) -/

theorem getD_map_lt {α β : Type} (f : α → β) (l : List α) {q : Nat} (hq : q < l.length)
    (d : α) (d' : β) : (l.map f).getD q d' = f (l.getD q d) := by
  rw [List.getD_eq_getElem _ _ (by simpa using hq), List.getD_eq_getElem _ _ hq,
    List.getElem_map]

theorem getD_replicate_zero (n p : Nat) : (List.replicate n (0 : ℚ)).getD p 0 = 0 := by
  by_cases hp : p < n
  · rw [List.getD_eq_getElem _ _ (by simpa using hp), List.getElem_replicate]
  · rw [List.getD_eq_default _ _ (by simpa using hp)]

theorem getD_set_self (arr : List ℚ) (i : Nat) (v : ℚ) (h : i < arr.length) :
    (arr.set i v).getD i 0 = v := by
  rw [List.getD_eq_getElem _ _ (by simpa using h), List.getElem_set_self]

theorem getD_set_ne (arr : List ℚ) (i j : Nat) (v : ℚ) (hij : i ≠ j) :
    (arr.set i v).getD j 0 = arr.getD j 0 := by
  by_cases hj : j < arr.length
  · rw [List.getD_eq_getElem _ _ (by simpa using hj),
      List.getD_eq_getElem _ _ hj, List.getElem_set_ne hij]
  · rw [List.getD_eq_default _ _ (by simpa using hj),
      List.getD_eq_default _ _ (by simpa using hj)]

/-! The inner assignment loop, generalized over the position map. -/

theorem foldSet_length (pos : Nat → Nat) (v : ℚ) (js : List Nat) (arr : List ℚ) :
    (js.foldl (fun acc j => acc.set (pos j) v) arr).length = arr.length := by
  induction js generalizing arr with
  | nil => rfl
  | cons j rest ih => simp only [List.foldl_cons, ih, List.length_set]

theorem foldSet_getD_notMem (pos : Nat → Nat) (v : ℚ) (js : List Nat) (arr : List ℚ)
    (p : Nat) (hp : p ∉ js.map pos) :
    (js.foldl (fun acc j => acc.set (pos j) v) arr).getD p 0 = arr.getD p 0 := by
  induction js generalizing arr with
  | nil => rfl
  | cons j rest ih =>
      simp only [List.map_cons, List.mem_cons] at hp
      push_neg at hp
      simp only [List.foldl_cons]
      rw [ih _ hp.2, getD_set_ne _ _ _ _ (fun he => hp.1 he.symm)]

theorem foldSet_getD_mem (pos : Nat → Nat) (v : ℚ) (js : List Nat) (arr : List ℚ)
    (p : Nat) (hlt : p < arr.length) (hp : p ∈ js.map pos) :
    (js.foldl (fun acc j => acc.set (pos j) v) arr).getD p 0 = v := by
  induction js generalizing arr with
  | nil => simp at hp
  | cons j rest ih =>
      simp only [List.map_cons, List.mem_cons] at hp
      by_cases hrest : p ∈ rest.map pos
      · simp only [List.foldl_cons]
        exact ih _ (by rw [List.length_set]; exact hlt) hrest
      · rcases hp with hp | hp
        · simp only [List.foldl_cons]
          rw [foldSet_getD_notMem _ _ _ _ _ hrest, hp,
            getD_set_self _ _ _ (hp ▸ hlt)]
        · exact absurd hp hrest

theorem set_sum_of_zero (arr : List ℚ) (i : Nat) (v : ℚ) (hi : i < arr.length)
    (hz : arr.getD i 0 = 0) : (arr.set i v).sum = arr.sum + v := by
  have hz' : arr[i] = 0 := by rwa [List.getD_eq_getElem _ _ hi] at hz
  have hdecomp : arr.sum = (arr.take i).sum + (arr[i] + (arr.drop (i + 1)).sum) := by
    conv_lhs => rw [← List.take_append_drop i arr]
    rw [List.sum_append, List.drop_eq_getElem_cons hi, List.sum_cons]
  rw [List.sum_set, if_pos hi, hdecomp, hz']
  ring

theorem foldSet_sum (pos : Nat → Nat) (v : ℚ) (js : List Nat) (arr : List ℚ)
    (hnd : (js.map pos).Nodup)
    (hlt : ∀ j ∈ js, pos j < arr.length)
    (hz : ∀ j ∈ js, arr.getD (pos j) 0 = 0) :
    (js.foldl (fun acc j => acc.set (pos j) v) arr).sum = arr.sum + (js.length : ℚ) * v := by
  induction js generalizing arr with
  | nil => simp
  | cons j rest ih =>
      simp only [List.map_cons, List.nodup_cons] at hnd
      have hjl : pos j < arr.length := hlt j (List.mem_cons_self j rest)
      have hjz : arr.getD (pos j) 0 = 0 := hz j (List.mem_cons_self j rest)
      simp only [List.foldl_cons]
      rw [ih (arr.set (pos j) v) hnd.2
        (fun j' hj' => by rw [List.length_set]; exact hlt j' (List.mem_cons_of_mem j hj'))
        (fun j' hj' => by
          rw [getD_set_ne _ _ _ _
            (fun he => hnd.1 (by rw [he]; exact List.mem_map_of_mem pos hj'))]
          exact hz j' (List.mem_cons_of_mem j hj'))]
      rw [set_sum_of_zero _ _ _ hjl hjz]
      simp only [List.length_cons]
      push_cast
      ring

/-! Facts about the index vector produced by `rank_simple`. -/

theorem rank_simple_perm (a : List ℚ) :
    (rank_simple a).Perm (List.range a.length) :=
  sortKey_perm (vecKey a) (List.range a.length)

theorem rank_simple_length (a : List ℚ) : (rank_simple a).length = a.length := by
  simpa using (rank_simple_perm a).length_eq

theorem rank_simple_getD_mem (a : List ℚ) {q : Nat} (hq : q < a.length) :
    (rank_simple a).getD q 0 ∈ rank_simple a := by
  rw [List.getD_eq_getElem _ _ (by rw [rank_simple_length]; exact hq)]
  exact List.getElem_mem _

theorem rank_simple_lt (a : List ℚ) {q : Nat} (hq : q < a.length) :
    (rank_simple a).getD q 0 < a.length := by
  have hmem := (rank_simple_perm a).mem_iff.mp (rank_simple_getD_mem a hq)
  simpa using hmem

theorem rank_simple_nodup (a : List ℚ) : (rank_simple a).Nodup :=
  ((rank_simple_perm a).nodup_iff).mpr (List.nodup_range _)

theorem rank_simple_inj (a : List ℚ) {q q' : Nat} (hq : q < a.length) (hq' : q' < a.length)
    (he : (rank_simple a).getD q 0 = (rank_simple a).getD q' 0) : q = q' := by
  have hq1 : q < (rank_simple a).length := by rw [rank_simple_length]; exact hq
  have hq1' : q' < (rank_simple a).length := by rw [rank_simple_length]; exact hq'
  rw [List.getD_eq_getElem _ _ hq1, List.getD_eq_getElem _ _ hq1'] at he
  exact ((rank_simple_nodup a).getElem_inj_iff).mp he

theorem rank_simple_surj (a : List ℚ) {p : Nat} (hp : p < a.length) :
    ∃ q, q < a.length ∧ (rank_simple a).getD q 0 = p := by
  have hmem : p ∈ rank_simple a :=
    (rank_simple_perm a).mem_iff.mpr (by simpa using hp)
  obtain ⟨q, hq, hgq⟩ := List.mem_iff_getElem.mp hmem
  refine ⟨q, by rw [← rank_simple_length]; exact hq, ?_⟩
  rw [List.getD_eq_getElem _ _ hq, hgq]

theorem sortedVals_getD (a : List ℚ) {q : Nat} (hq : q < a.length) :
    (sortedVals a).getD q 0 = a.getD ((rank_simple a).getD q 0) 0 := by
  rw [sortedVals, getD_map_lt (vecKey a) _ (by rw [rank_simple_length]; exact hq) 0 0]
  rfl

theorem sortedVals_mono (a : List ℚ) {j k : Nat} (hjk : j ≤ k) (hk : k < a.length) :
    (sortedVals a).getD j 0 ≤ (sortedVals a).getD k 0 := by
  rcases eq_or_lt_of_le hjk with rfl | hlt
  · exact le_refl _
  · have hpw : (rank_simple a).Pairwise (fun p q => vecKey a p ≤ vecKey a q) :=
      sortKey_pairwise (vecKey a) (List.range a.length)
    have hk1 : k < (rank_simple a).length := by rw [rank_simple_length]; exact hk
    have hj1 : j < (rank_simple a).length := lt_trans hlt hk1
    have := (List.pairwise_iff_getElem.mp hpw) j k hj1 hk1 hlt
    rw [sortedVals_getD a (lt_of_lt_of_le hlt (le_of_lt hk)), sortedVals_getD a hk]
    rw [List.getD_eq_getElem _ _ hj1, List.getD_eq_getElem _ _ hk1]
    exact this

/-- Gauss sum for 1-based ranks. -/
theorem sum_range_rank (n : Nat) :
    ∑ q ∈ Finset.range n, ((q : ℚ) + 1) = (n : ℚ) * ((n : ℚ) + 1) / 2 := by
  induction n with
  | zero => simp
  | succ m ih =>
      rw [Finset.sum_range_succ, ih]
      push_cast
      ring

/-- The main loop invariant of `rankdata`: at entry of iteration `i` with
accumulators `sumranks`/`dupcount`, the open tie run covers the sorted
positions `[i - dupcount, i)`, everything before it already carries its
tie group's average 1-based rank, everything after is still `0`, and the
array total equals the 1-based positions consumed so far.  The final
array therefore assigns every sorted position its tie-group average and
sums to the full Gauss total. -/
theorem rankLoop_master (a : List ℚ) :
    ∀ (i sumranks dupcount : Nat) (arr : List ℚ),
      i ≤ a.length →
      dupcount ≤ i →
      (i = a.length → dupcount = 0) →
      sumranks = ∑ q ∈ Finset.Ico (i - dupcount) i, q →
      (∀ j, i - dupcount ≤ j → j < i →
        (sortedVals a).getD j 0 = (sortedVals a).getD i 0) →
      (i < a.length → (i - dupcount = 0 ∨
        (sortedVals a).getD (i - dupcount - 1) 0 ≠ (sortedVals a).getD (i - dupcount) 0)) →
      arr.length = a.length →
      (∀ q, q < i - dupcount →
        arr.getD ((rank_simple a).getD q 0) 0 = tieGroupAvg a ((sortedVals a).getD q 0)) →
      (∀ q, i - dupcount ≤ q → q < a.length →
        arr.getD ((rank_simple a).getD q 0) 0 = 0) →
      arr.sum = ∑ q ∈ Finset.range (i - dupcount), ((q : ℚ) + 1) →
      (rankLoop a.length (sortedVals a) (rank_simple a) i sumranks dupcount arr).length
          = a.length ∧
      (rankLoop a.length (sortedVals a) (rank_simple a) i sumranks dupcount arr).sum =
        ∑ q ∈ Finset.range a.length, ((q : ℚ) + 1) ∧
      (∀ q, q < a.length →
        (rankLoop a.length (sortedVals a) (rank_simple a) i sumranks dupcount arr).getD
          ((rank_simple a).getD q 0) 0 = tieGroupAvg a ((sortedVals a).getD q 0)) := by
  apply rankLoop.induct a.length (sortedVals a) (rank_simple a)
  · -- run closes at i
    intro i S D arr hlt hcond IH
    intro h_in h_d h_dn h_s h_run h_start h_len h_assigned h_zero h_sum
    have hidx : i + 1 - (D + 1) = i - D := by omega
    set v := (sortedVals a).getD i 0 with hv
    set A := ((S + i : Nat) : ℚ) / ((D + 1 : Nat) : ℚ) + 1 with hA
    -- the tie group of the closing run is exactly the interval [i-D, i]
    have hG : tieGroup a v = Finset.Ico (i - D) (i + 1) := by
      ext q
      simp only [tieGroup, Finset.mem_filter, Finset.mem_range, Finset.mem_Ico]
      constructor
      · rintro ⟨hqn, hqv⟩
        constructor
        · by_contra hql
          push_neg at hql
          rcases h_start hlt with h0 | hne
          · omega
          · have hlv : (sortedVals a).getD (i - D) 0 = v := by
              rcases eq_or_lt_of_le (Nat.sub_le i D) with he | hlt2
              · rw [hv, he]
              · exact h_run (i - D) (le_refl _) hlt2
            have h1 : (sortedVals a).getD q 0 ≤ (sortedVals a).getD (i - D - 1) 0 :=
              sortedVals_mono a (by omega) (by omega)
            have h2 : (sortedVals a).getD (i - D - 1) 0 <
                (sortedVals a).getD (i - D) 0 :=
              lt_of_le_of_ne (sortedVals_mono a (by omega) (by omega)) hne
            rw [hlv] at h2
            rw [hqv] at h1
            linarith
        · by_contra hqi
          push_neg at hqi
          rcases hcond with hie | hne
          · omega
          · have h1 : (sortedVals a).getD i 0 < (sortedVals a).getD (i + 1) 0 :=
              lt_of_le_of_ne (sortedVals_mono a (by omega) (by omega)) hne
            have h2 : (sortedVals a).getD (i + 1) 0 ≤ (sortedVals a).getD q 0 :=
              sortedVals_mono a hqi hqn
            rw [hqv] at h2
            rw [← hv] at h1
            linarith
      · rintro ⟨hql, hqi⟩
        refine ⟨by omega, ?_⟩
        rcases eq_or_lt_of_le (Nat.lt_succ_iff.mp hqi) with rfl | hqlt
        · rfl
        · exact h_run q hql hqlt
    have hcard : (tieGroup a v).card = D + 1 := by
      rw [hG, Nat.card_Ico]
      omega
    have hsumIco : ∑ q ∈ Finset.Ico (i - D) (i + 1), q = S + i := by
      rw [Finset.sum_Ico_succ_top (Nat.sub_le i D) (fun q => q), ← h_s]
    have htiesum : ∑ q ∈ tieGroup a v, ((q : ℚ) + 1) =
        ((S + i : Nat) : ℚ) + ((D + 1 : Nat) : ℚ) := by
      rw [hG, Finset.sum_add_distrib, Finset.sum_const, Nat.card_Ico, ← Nat.cast_sum,
        hsumIco]
      have he : i + 1 - (i - D) = D + 1 := by omega
      rw [he]
      push_cast
      ring
    have hD0 : ((D + 1 : Nat) : ℚ) ≠ 0 := by
      exact_mod_cast Nat.succ_ne_zero D
    have havg : tieGroupAvg a v = A := by
      rw [tieGroupAvg, htiesum, hcard, hA]
      field_simp
    -- effect of the assignment loop
    have hmem_js : ∀ q, q ∈ List.range' (i - D) (D + 1) ↔ (i - D ≤ q ∧ q < i + 1) := by
      intro q
      rw [List.mem_range'_1]
      omega
    have hnotmem : ∀ p, p < a.length → (p < i - D ∨ i + 1 ≤ p) →
        (rank_simple a).getD p 0 ∉
          (List.range' (i - D) (D + 1)).map (fun j => (rank_simple a).getD j 0) := by
      intro p hp hcase hmem
      obtain ⟨j, hj, hje⟩ := List.mem_map.mp hmem
      have hj' := (hmem_js j).mp hj
      have hjp : j = p := rank_simple_inj a (by omega) hp hje
      omega
    have harr' : assignRun (rank_simple a) A (i + 1 - (D + 1)) (D + 1) arr =
        (List.range' (i - D) (D + 1)).foldl
          (fun acc j => acc.set ((rank_simple a).getD j 0) A) arr := by
      rw [assignRun, hidx]
    have hlen' : (assignRun (rank_simple a) A (i + 1 - (D + 1)) (D + 1) arr).length =
        a.length := by
      rw [harr', foldSet_length (fun j => (rank_simple a).getD j 0), h_len]
    have hassigned' : ∀ q, q < i + 1 →
        (assignRun (rank_simple a) A (i + 1 - (D + 1)) (D + 1) arr).getD
          ((rank_simple a).getD q 0) 0 = tieGroupAvg a ((sortedVals a).getD q 0) := by
      intro q hq
      rcases Nat.lt_or_ge q (i - D) with hql | hqge
      · rw [harr',
          foldSet_getD_notMem _ _ _ _ _ (hnotmem q (by omega) (Or.inl hql))]
        exact h_assigned q hql
      · have hqv : (sortedVals a).getD q 0 = v := by
          rcases eq_or_lt_of_le (Nat.lt_succ_iff.mp hq) with rfl | hqlt
          · rfl
          · exact h_run q hqge hqlt
        rw [hqv, havg, harr',
          foldSet_getD_mem _ _ _ _ _ (by rw [h_len]; exact rank_simple_lt a (by omega))
            (List.mem_map_of_mem _ ((hmem_js q).mpr ⟨hqge, hq⟩))]
    have hzero' : ∀ q, i + 1 ≤ q → q < a.length →
        (assignRun (rank_simple a) A (i + 1 - (D + 1)) (D + 1) arr).getD
          ((rank_simple a).getD q 0) 0 = 0 := by
      intro q hq hqn
      rw [harr', foldSet_getD_notMem _ _ _ _ _ (hnotmem q hqn (Or.inr hq))]
      exact h_zero q (by omega) hqn
    have hsum' : (assignRun (rank_simple a) A (i + 1 - (D + 1)) (D + 1) arr).sum =
        ∑ q ∈ Finset.range (i + 1), ((q : ℚ) + 1) := by
      have hnd : ((List.range' (i - D) (D + 1)).map
          (fun j => (rank_simple a).getD j 0)).Nodup := by
        refine List.Nodup.map_on ?_ (List.nodup_range' _ _)
        intro x hx y hy hxy
        have hx' := (hmem_js x).mp hx
        have hy' := (hmem_js y).mp hy
        exact rank_simple_inj a (by omega) (by omega) hxy
      have hsum_set := foldSet_sum (fun j => (rank_simple a).getD j 0) A
        (List.range' (i - D) (D + 1)) arr hnd
        (fun j hj => by
          rw [h_len]
          exact rank_simple_lt a (by have := (hmem_js j).mp hj; omega))
        (fun j hj => by
          have hj' := (hmem_js j).mp hj
          exact h_zero j hj'.1 (by omega))
      rw [harr', hsum_set, h_sum, List.length_range']
      have hsplit : ∑ q ∈ Finset.range (i + 1), ((q : ℚ) + 1) =
          (∑ q ∈ Finset.Ico 0 (i - D), ((q : ℚ) + 1)) +
            ∑ q ∈ Finset.Ico (i - D) (i + 1), ((q : ℚ) + 1) := by
        rw [Finset.sum_Ico_consecutive _ (Nat.zero_le _) (by omega),
          Finset.range_eq_Ico]
      have htie2 : ∑ q ∈ Finset.Ico (i - D) (i + 1), ((q : ℚ) + 1) =
          ((D + 1 : Nat) : ℚ) * A := by
        rw [← hG, htiesum, hA]
        field_simp
      rw [hsplit, ← Finset.range_eq_Ico, htie2]
    -- close the branch
    rw [rankLoop, if_pos hlt, if_pos hcond]
    exact IH (by omega) (by omega) (fun _ => rfl) (by simp)
      (fun j hj1 hj2 => by omega)
      (fun h1n => by
        rcases hcond with hie | hne
        · omega
        · right
          rw [hv] at hne
          exact hne)
      hlen' (fun q hq => hassigned' q hq) (fun q hq hqn => hzero' q hq hqn)
      hsum'
  · -- run stays open
    intro i S D arr hlt hcond IH
    intro h_in h_d h_dn h_s h_run h_start h_len h_assigned h_zero h_sum
    push_neg at hcond
    obtain ⟨hine, heq⟩ := hcond
    have hi1n : i + 1 < a.length := by omega
    have hidx : i + 1 - (D + 1) = i - D := by omega
    rw [rankLoop, if_pos hlt, if_neg (by push_neg; exact ⟨hine, heq⟩)]
    exact IH (by omega) (by omega) (by omega)
      (by rw [hidx, Finset.sum_Ico_succ_top (Nat.sub_le i D) (fun q => q), ← h_s])
      (fun j hj1 hj2 => by
        rcases eq_or_lt_of_le (Nat.lt_succ_iff.mp hj2) with rfl | hjlt
        · exact heq
        · rw [h_run j (by omega) hjlt]
          exact heq)
      (fun _ => by rw [hidx]; exact h_start hlt)
      h_len
      (fun q hq => h_assigned q (by omega))
      (fun q hq hqn => h_zero q (by omega) hqn)
      (by rw [hidx] at *; exact h_sum)
  · -- loop exit
    intro i S D arr hge
    intro h_in h_d h_dn h_s h_run h_start h_len h_assigned h_zero h_sum
    have hin : i = a.length := by omega
    have hd0 : D = 0 := h_dn hin
    rw [rankLoop, if_neg hge]
    refine ⟨h_len, ?_, ?_⟩
    · rw [h_sum, hin, hd0]
      simp
    · intro q hq
      have := h_assigned q (by omega)
      exact this

/-- The master invariant instantiated at the initial state of `rankdata`. -/
theorem rankdata_master (a : List ℚ) :
    (rankdata a).length = a.length ∧
    (rankdata a).sum = ∑ q ∈ Finset.range a.length, ((q : ℚ) + 1) ∧
    (∀ q, q < a.length → (rankdata a).getD ((rank_simple a).getD q 0) 0 =
      tieGroupAvg a ((sortedVals a).getD q 0)) := by
  have hdef : rankdata a = rankLoop a.length (sortedVals a) (rank_simple a) 0 0 0
      (List.replicate a.length 0) := rfl
  rw [hdef]
  exact rankLoop_master a 0 0 0 (List.replicate a.length 0) (Nat.zero_le _) (le_refl 0)
    (fun _ => rfl) (by simp) (fun j hj1 hj2 => absurd hj2 (by omega))
    (fun _ => Or.inl rfl) (by simp) (fun q hq => absurd hq (by omega))
    (fun q _ _ => getD_replicate_zero _ _) (by simp)

theorem rankdata_characterization (a : List ℚ) {p : Nat} (hp : p < a.length) :
    (rankdata a).getD p 0 = tieGroupAvg a (a.getD p 0) := by
  obtain ⟨q, hq, hpq⟩ := rank_simple_surj a hp
  have h3 := (rankdata_master a).2.2 q hq
  rw [← hpq, h3, sortedVals_getD a hq, hpq]

/-- Extensionality via the total `getD` accessor. -/
theorem list_eq_of_getD {l1 l2 : List ℚ} (hlen : l1.length = l2.length)
    (h : ∀ p, p < l1.length → l1.getD p 0 = l2.getD p 0) : l1 = l2 := by
  apply List.ext_getElem hlen
  intro i h1 h2
  have hi := h i h1
  rwa [List.getD_eq_getElem _ _ h1, List.getD_eq_getElem _ _ h2] at hi

/-- C4: `rankdata` implements the 1-based average-rank convention — every
position's rank is the average of the 1-based positions its tie group
occupies in the stable ascending sort — and in particular
`rankdata [3,1,2,2] = [4, 1, 2.5, 2.5]`. -/
theorem rankdata_average_rank :
    (∀ (a : List ℚ) (p : Nat), p < a.length →
      (rankdata a).getD p 0 = tieGroupAvg a (a.getD p 0)) ∧
    rankdata [3, 1, 2, 2] = [4, 1, 2.5, 2.5] := by
  refine ⟨fun a p hp => rankdata_characterization a hp, ?_⟩
  have h0 : tieGroupAvg ([3, 1, 2, 2] : List ℚ) 3 = 4 := by
    rw [tieGroupAvg, show tieGroup ([3, 1, 2, 2] : List ℚ) 3 = {3} by decide]
    norm_num
  have h1 : tieGroupAvg ([3, 1, 2, 2] : List ℚ) 1 = 1 := by
    rw [tieGroupAvg, show tieGroup ([3, 1, 2, 2] : List ℚ) 1 = {0} by decide]
    norm_num
  have h2 : tieGroupAvg ([3, 1, 2, 2] : List ℚ) 2 = 2.5 := by
    rw [tieGroupAvg, show tieGroup ([3, 1, 2, 2] : List ℚ) 2 = {1, 2} by decide]
    norm_num
  refine list_eq_of_getD ?_ ?_
  · rw [(rankdata_master _).1]
    rfl
  · intro p hp
    have hp4 : p < 4 := by
      rw [(rankdata_master ([3, 1, 2, 2] : List ℚ)).1] at hp
      simpa using hp
    interval_cases p
    · rw [rankdata_characterization _ (by decide)]
      simp only [List.getD_cons_zero, List.getD_cons_succ]
      exact h0
    · rw [rankdata_characterization _ (by decide)]
      simp only [List.getD_cons_zero, List.getD_cons_succ]
      exact h1
    · rw [rankdata_characterization _ (by decide)]
      simp only [List.getD_cons_zero, List.getD_cons_succ]
      exact h2
    · rw [rankdata_characterization _ (by decide)]
      simp only [List.getD_cons_zero, List.getD_cons_succ]
      exact h2

/-- Witness for C4 at the example input's first position. -/
theorem rankdata_average_rank_witness :
    (rankdata [3, 1, 2, 2]).getD 0 0 =
      tieGroupAvg [3, 1, 2, 2] (([3, 1, 2, 2] : List ℚ).getD 0 0) :=
  rankdata_average_rank.1 [3, 1, 2, 2] 0 (by decide)

/-- C10: for every input list, `rankdata` returns a list of the same
length `n` whose entries sum to `n (n + 1) / 2` — tie averaging
redistributes ranks within a group but preserves their total, so the mean
rank is always `(n + 1) / 2`. -/
theorem rankdata_sum_invariant (a : List ℚ) :
    (rankdata a).length = a.length ∧
    (rankdata a).sum = (a.length : ℚ) * ((a.length : ℚ) + 1) / 2 := by
  refine ⟨(rankdata_master a).1, ?_⟩
  rw [(rankdata_master a).2.1, sum_range_rank]

end Censo
